import Mathlib

/-!
Shallow embedding of the `chemparse` library (src/chemparse.ts, v1.0.1):
a parser for chemical formula strings producing element quantity maps,
with derived operations `validate`, `compare` and `diff`.

JS objects holding element quantities are modelled as insertion-ordered
association lists with unique keys; JS numbers are modelled as rationals.
-/

attribute [local semireducible] Rat.add Rat.sub Rat.mul Rat.inv Rat.ofScientific

namespace ChemParse

/-- An `ElementCounts` object: insertion-ordered association list, unique keys. -/
abbrev Counts := List (String × ℚ)

/-- The structured failures raised by the library (TypeError and the four
`throw new Error(...)` sites; messages are abstracted to their kind plus payload). -/
inductive PErr where
  | typeError
  | unknownSymbol (s : String)
  | unmatchedClosing
  | unmatchedOpening
  | invalidChar (c : Char)
deriving DecidableEq

instance : DecidableEq (Except PErr Counts) := fun x y =>
  match x, y with
  | .error a, .error b =>
      if h : a = b then isTrue (congrArg Except.error h)
      else isFalse (fun hc => h (Except.error.inj hc))
  | .ok a, .ok b =>
      if h : a = b then isTrue (congrArg Except.ok h)
      else isFalse (fun hc => h (Except.ok.inj hc))
  | .error _, .ok _ => isFalse (fun hc => Except.noConfusion hc)
  | .ok _, .error _ => isFalse (fun hc => Except.noConfusion hc)

/-- JS `\s` whitespace class (the characters removed by `.replace(/\s+/g, '')`). -/
def isJsWs (c : Char) : Bool :=
  c = ' ' || c = '\t' || c = '\n' || c = '\r' ||
  c = Char.ofNat 0x0B || c = Char.ofNat 0x0C || c = Char.ofNat 0xA0 ||
  c = Char.ofNat 0x1680 || (0x2000 ≤ c.toNat && c.toNat ≤ 0x200A) ||
  c = Char.ofNat 0x2028 || c = Char.ofNat 0x2029 || c = Char.ofNat 0x202F ||
  c = Char.ofNat 0x205F || c = Char.ofNat 0x3000 || c = Char.ofNat 0xFEFF

/-- `.replace(/([0-9]),([0-9])/g, '$1.$2')`: global left-to-right scan replacing a
digit-comma-digit triple by digit-dot-digit, resuming after each 3-character match. -/
def commaFix : List Char → List Char
  | a :: ',' :: b :: rest =>
      if a.isDigit ∧ b.isDigit then a :: '.' :: b :: commaFix rest
      else a :: commaFix (',' :: b :: rest)
  | a :: rest => a :: commaFix rest
  | [] => []

/-- The normalization pipeline of `parse` (lines 237-240): strip whitespace,
turn digit-comma-digit into a decimal point, drop remaining commas. -/
def normalizeChars (cs : List Char) : List Char :=
  (commaFix (cs.filter (fun c => !isJsWs c))).filter (fun c => c ≠ ',')

/-- Numeric value of a list of ASCII digits. -/
def digitsNat (ds : List Char) : ℕ :=
  ds.foldl (fun n c => 10 * n + (c.toNat - 48)) 0

/-- The optional exponent part `(?:[eE][+-]?\d+)?` of `NUMBER_REGEX`: returns the
signed exponent and the number of characters consumed (0 if the part is absent). -/
def scanExp (cs : List Char) : Int × Nat :=
  match cs with
  | c :: rest =>
    if c = 'e' ∨ c = 'E' then
      match rest with
      | s :: rest2 =>
        if s = '+' ∨ s = '-' then
          let ds := rest2.takeWhile Char.isDigit
          if ds = [] then (0, 0)
          else (if s = '-' then -(digitsNat ds : Int) else (digitsNat ds : Int), 2 + ds.length)
        else
          let ds := rest.takeWhile Char.isDigit
          if ds = [] then (0, 0) else ((digitsNat ds : Int), 1 + ds.length)
      | [] => (0, 0)
    else (0, 0)
  | [] => (0, 0)

/-- Mantissa value of `intPart.fracPart`. -/
def mantissaVal (ip fp : List Char) : ℚ :=
  (digitsNat ip : ℚ) + (digitsNat fp : ℚ) / 10 ^ fp.length

/-- `NUMBER_REGEX = /^(\d*\.?\d+(?:[eE][+-]?\d+)?)/` applied at the start of `cs`,
returning the parsed value (as in `parseFloat`) and the matched length, or `none`. -/
def scanNumber (cs : List Char) : Option (ℚ × Nat) :=
  let ip := cs.takeWhile Char.isDigit
  let r1 := cs.drop ip.length
  match r1 with
  | '.' :: r2 =>
    let fp := r2.takeWhile Char.isDigit
    if fp = [] then
      if ip = [] then none
      else some ((digitsNat ip : ℚ), ip.length)
    else
      let e := scanExp (r2.drop fp.length)
      some (mantissaVal ip fp * (10 : ℚ) ^ e.1, ip.length + 1 + fp.length + e.2)
  | _ =>
    if ip = [] then none
    else
      let e := scanExp r1
      some ((digitsNat ip : ℚ) * (10 : ℚ) ^ e.1, ip.length + e.2)

/-- `scanNumber` with the default used at all call sites: value 1, zero consumed. -/
def scanNumD (cs : List Char) : ℚ × Nat :=
  match scanNumber cs with
  | some (v, n) => (v, n)
  | none => (1, 0)

/-- The character class `[⁺⁻\d]` of the superscript alternative of `CHARGE_REGEX`
(`\d` with the `u` flag is ASCII digits only). -/
def chargeClassB (c : Char) : Bool :=
  c = '⁺' || c = '⁻' || c.isDigit

/-- `SUPERSCRIPT_MAP`: unicode superscripts to their ASCII equivalents. -/
def supMapChar (c : Char) : Option Char :=
  if c = '⁺' then some '+'
  else if c = '⁻' then some '-'
  else if c = '⁰' then some '0'
  else if c = '¹' then some '1'
  else if c = '²' then some '2'
  else if c = '³' then some '3'
  else if c = '⁴' then some '4'
  else if c = '⁵' then some '5'
  else if c = '⁶' then some '6'
  else if c = '⁷' then some '7'
  else if c = '⁸' then some '8'
  else if c = '⁹' then some '9'
  else none

/-- `_parseSuperscriptCharge`: map superscript characters to ASCII (dropping the
rest), then match `^(\d*)([+-])$`; magnitude defaults to 1, sign from the last char. -/
def parseSuperscriptCharge (s : List Char) : Option ℚ :=
  if s = [] then none
  else
    let normal := s.filterMap supMapChar
    if normal = [] then none
    else
      match normal.getLast? with
      | some lastc =>
        if (lastc = '+' ∨ lastc = '-') ∧ normal.dropLast.all Char.isDigit then
          let n : ℚ := if normal.dropLast = [] then 1 else (digitsNat normal.dropLast : ℚ)
          some (if lastc = '+' then n else -n)
        else none
      | none => none

/-- Result of matching one alternative of `CHARGE_REGEX` at some position:
either the caret alternative (captures 1 and 2) or the superscript
alternative (capture 3). -/
inductive ChargeAlt where
  | caret (g1 : List Char) (g2 : Char)
  | sup (g3 : List Char)
deriving DecidableEq

/-- Language of the optional capture `([+-]?\d+)?`: empty (group absent), or an
optional ASCII sign followed by at least one digit. -/
def g1Ok : List Char → Bool
  | [] => true
  | c :: rest =>
    if c = '+' ∨ c = '-' then rest ≠ [] && rest.all Char.isDigit
    else (c :: rest).all Char.isDigit

/-- Does the caret alternative `\^([+-]?\d+)?([+-])$` match this suffix exactly?
Returns captures 1 (possibly `[]` for "absent") and 2 on success. -/
def caretMatch (l : List Char) : Option (List Char × Char) :=
  match l with
  | c :: rest =>
    if c = '^' then
      match rest.getLast? with
      | some lastc =>
        if (lastc = '+' ∨ lastc = '-') ∧ g1Ok rest.dropLast then
          some (rest.dropLast, lastc)
        else none
      | none => none
    else none
  | [] => none

/-- Leftmost match of `CHARGE_REGEX = /(?:\^([+-]?\d+)?([+-]))$|(?:([⁺⁻\d]+))$/u`:
scan start positions left to right, trying the caret alternative before the
superscript alternative at each position; both are anchored at the end. -/
def findChargeMatch : List Char → Option (Nat × ChargeAlt)
  | [] => none
  | c :: rest =>
    match caretMatch (c :: rest) with
    | some (g1, g2) => some (0, .caret g1 g2)
    | none =>
      if chargeClassB c && rest.all chargeClassB then some (0, .sup (c :: rest))
      else
        match findChargeMatch rest with
        | some (i, alt) => some (i + 1, alt)
        | none => none

/-- `parseInt(s, 10)` on capture 1 of the caret alternative (an optional ASCII
sign followed by digits). -/
def parseIntJS : List Char → ℚ
  | '+' :: ds => (digitsNat ds : ℚ)
  | '-' :: ds => -(digitsNat ds : ℚ)
  | ds => (digitsNat ds : ℚ)

/-- The charge-extraction step of `parse` (lines 242-262): the value the local
variable `charge` receives, and the (possibly truncated) `mainFormula`. -/
def extractChargeStep (l : List Char) : Option ℚ × List Char :=
  match findChargeMatch l with
  | none => (none, l)
  | some (i, .caret g1 g2) =>
    let n : ℚ := if g1 = [] then 1 else parseIntJS g1
    (some (if g2 = '+' then n else -n), l.take i)
  | some (i, .sup g3) =>
    (parseSuperscriptCharge g3, l.take i)

/-- `ELEMENT_SYMBOLS`: the 118 valid element symbols. -/
def ELEMENT_SYMBOLS : List String :=
  [ "H",  "He", "Li", "Be", "B",  "C",  "N",  "O",  "F",  "Ne",
    "Na", "Mg", "Al", "Si", "P",  "S",  "Cl", "Ar", "K",  "Ca",
    "Sc", "Ti", "V",  "Cr", "Mn", "Fe", "Co", "Ni", "Cu", "Zn",
    "Ga", "Ge", "As", "Se", "Br", "Kr", "Rb", "Sr", "Y",  "Zr",
    "Nb", "Mo", "Tc", "Ru", "Rh", "Pd", "Ag", "Cd", "In", "Sn",
    "Sb", "Te", "I",  "Xe", "Cs", "Ba", "La", "Ce", "Pr", "Nd",
    "Pm", "Sm", "Eu", "Gd", "Tb", "Dy", "Ho", "Er", "Tm", "Yb",
    "Lu", "Hf", "Ta", "W",  "Re", "Os", "Ir", "Pt", "Au", "Hg",
    "Tl", "Pb", "Bi", "Po", "At", "Rn", "Fr", "Ra", "Ac", "Th",
    "Pa", "U",  "Np", "Pu", "Am", "Cm", "Bk", "Cf", "Es", "Fm",
    "Md", "No", "Lr", "Rf", "Db", "Sg", "Bh", "Hs", "Mt", "Ds",
    "Rg", "Cn", "Fl", "Lv", "Ts", "Og" ]

/-- `ELEMENT_SYMBOLS.has(el)`. -/
def isElementSymbol (el : String) : Bool := ELEMENT_SYMBOLS.contains el

/-- JS object property read with default 0 (`m[k] || 0`). -/
def getQ : Counts → String → ℚ
  | [], _ => 0
  | (k, v) :: rest, key => if k = key then v else getQ rest key

/-- JS object property write `m[k] = v`: update in place if present,
else append at the end (insertion order). -/
def setKey : Counts → String → ℚ → Counts
  | [], k, v => [(k, v)]
  | (k', v') :: rest, k, v =>
    if k' = k then (k, v) :: rest else (k', v') :: setKey rest k v

/-- `m[k] = (m[k] || 0) + d`. -/
def addTo (m : Counts) (k : String) (d : ℚ) : Counts :=
  setKey m k (getQ m k + d)

/-- The closing-bracket merge (lines 161-170): fold the popped accumulator's
entries, in insertion order, into the parent, scaled by the multiplier. -/
def mergeScaled (parent popped : Counts) (mult : ℚ) : Counts :=
  popped.foldl (fun t p => addTo t p.1 (p.2 * mult)) parent

def isOpenB (c : Char) : Bool := c = '(' || c = '[' || c = '{'

def isCloseB (c : Char) : Bool := c = ')' || c = ']' || c = '}'

/-- `_parseCore`'s scanning loop. The stack is kept top-first (`push` is cons,
`pop` is tail); the loop index is replaced by the remaining character list.
The `fuel` argument makes the recursion structural (so that the kernel can
evaluate it); every loop iteration consumes at least one character, so the
invariant `fuel ≥ remaining + 1` holds for the initial fuel chosen by
`parseCore` and the fuel-exhausted branch is unreachable from it. -/
def parseCoreGo : Nat → List Char → List Counts → Except PErr Counts
  | 0, _, _ => .error .unmatchedOpening
  | _ + 1, [], stack =>
    match stack with
    | [root] => .ok root
    | _ => .error .unmatchedOpening
  | fuel + 1, c :: rest, stack =>
    if isOpenB c then parseCoreGo fuel rest ([] :: stack)
    else if isCloseB c then
      let scan := scanNumD rest
      match stack with
      | [_] => .error .unmatchedClosing
      | top :: parent :: stk =>
        parseCoreGo fuel (rest.drop scan.2) (mergeScaled parent top scan.1 :: stk)
      | [] => .error .unmatchedClosing
    else if c.isUpper then
      let lows := rest.takeWhile Char.isLower
      let sym : String := ⟨c :: lows⟩
      let scan := scanNumD (rest.drop lows.length)
      if isElementSymbol sym then
        match stack with
        | top :: stk =>
          parseCoreGo fuel (rest.drop (lows.length + scan.2)) (addTo top sym scan.1 :: stk)
        | [] => .error (.unknownSymbol sym)
      else .error (.unknownSymbol sym)
    else .error (.invalidChar c)

/-- `_parseCore(str)`: run the scanner with one empty root accumulator. -/
def parseCore (cs : List Char) : Except PErr Counts :=
  parseCoreGo (cs.length + 1) cs [[]]

/-- `.replace(/_|·/g, '·').split('·')`: split on the two separator
characters, keeping empty pieces (filtered by the caller). -/
def splitSep : List Char → List (List Char)
  | [] => [[]]
  | c :: rest =>
    let ps := splitSep rest
    if c = '·' ∨ c = '_' then [] :: ps
    else (c :: ps.headD []) :: ps.tail

/-- The merge loop of `parse` (lines 291-301): for each entry of the segment's
counts, re-check catalog membership, then add `cnt * leadingCoef` into the total. -/
def mergeChecked : Counts → Counts → ℚ → Except PErr Counts
  | total, [], _ => .ok total
  | total, (el, cnt) :: rest, coef =>
    if isElementSymbol el then mergeChecked (addTo total el (cnt * coef)) rest coef
    else .error (.unknownSymbol el)

/-- The per-segment loop of `parse` (lines 272-303): leading coefficient,
bare-number skip, segment parse, checked merge. -/
def partsGo : List (List Char) → Counts → Except PErr Counts
  | [], total => .ok total
  | p :: ps, total =>
    match scanNumber p with
    | some (v, n) =>
      if p.drop n = [] then partsGo ps total
      else
        match parseCore (p.drop n) with
        | .error e => .error e
        | .ok pc =>
          match mergeChecked total pc v with
          | .error e => .error e
          | .ok t2 => partsGo ps t2
    | none =>
      match parseCore p with
      | .error e => .error e
      | .ok pc =>
        match mergeChecked total pc 1 with
        | .error e => .error e
        | .ok t2 => partsGo ps t2

/-- A JS argument value: a string, a number, or anything else
(`typeof formula !== 'string'` distinguishes only the first case). -/
inductive JSVal where
  | str (s : String)
  | num (n : ℚ)
  | other

/-- `ChemParse.parse`. Note the local `charge` (the first component of
`extractChargeStep`) is computed but never attached to the result, exactly as
in the source, which returns only `total`. -/
def parse (v : JSVal) : Except PErr Counts :=
  match v with
  | .str formula =>
    let step := extractChargeStep (normalizeChars formula.data)
    let parts := (splitSep step.2).filter (fun p => !p.isEmpty)
    partsGo parts []
  | _ => .error .typeError

/-- The value of `parse`'s local variable `charge` (lines 236-262),
exposed for specification purposes. -/
def extractedCharge (v : JSVal) : Option ℚ :=
  match v with
  | .str formula => (extractChargeStep (normalizeChars formula.data)).1
  | _ => none

/-- `ChemParse.validate`: `parse` in a try/catch. -/
def validate (v : JSVal) : Bool :=
  match parse v with
  | .ok _ => true
  | .error _ => false

/-- The comparison tolerance `1e-12`. -/
def tol : ℚ := 1 / 10 ^ 12

/-- `Object.keys(m).sort()`: key list in lexicographic order (the keys are
distinct, so any comparison sort yields this unique sorted list). -/
def keysSorted (m : Counts) : List String :=
  (m.map Prod.fst).insertionSort (· ≤ ·)

/-- `ChemParse.compare`: sorted key lists compared pointwise with the
absolute tolerance; any failure yields `false`. -/
def compare (a b : JSVal) : Bool :=
  match parse a, parse b with
  | .ok pa, .ok pb =>
    let ka := keysSorted pa
    let kb := keysSorted pb
    decide (ka.length = kb.length) &&
      (ka.zip kb).all (fun p =>
        decide (p.1 = p.2) && decide (|getQ pa p.1 - getQ pb p.2| ≤ tol))
  | _, _ => false

/-- Iteration of `new Set(...)` insertion: keep an element if not seen before. -/
def dedupAux (seen : List String) : List String → List String
  | [] => []
  | k :: rest =>
    if k ∈ seen then dedupAux seen rest else k :: dedupAux (k :: seen) rest

/-- `new Set([...keys(a), ...keys(b)])`: deduplicate keeping first occurrences. -/
def dedupKeys (l : List String) : List String := dedupAux [] l

/-- The union-subtraction map built by `diff`'s loop. -/
def diffMap (pa pb : Counts) : Counts :=
  (dedupKeys (pa.map Prod.fst ++ pb.map Prod.fst)).map
    (fun k => (k, getQ pa k - getQ pb k))

/-- `ChemParse.diff`: parse both (propagating failures), then subtract
element-wise over the key union. -/
def diff (a b : JSVal) : Except PErr Counts :=
  match parse a with
  | .error e => .error e
  | .ok pa =>
    match parse b with
    | .error e => .error e
    | .ok pb => .ok (diffMap pa pb)

/-! Section: Helper lemmas about quantity maps -/

theorem keys_setKey (m : Counts) (k : String) (v : ℚ) :
    (setKey m k v).map Prod.fst =
      if k ∈ m.map Prod.fst then m.map Prod.fst else m.map Prod.fst ++ [k] := by
  induction m with
  | nil => simp [setKey]
  | cons hd tl ih =>
    obtain ⟨k', v'⟩ := hd
    by_cases h : k' = k
    · subst h
      simp [setKey]
    · simp only [setKey, if_neg h, List.map_cons, ih]
      by_cases hm : k ∈ tl.map Prod.fst
      · simp [hm, Ne.symm h]
      · simp [hm, Ne.symm h]

theorem nodup_keys_setKey (m : Counts) (k : String) (v : ℚ)
    (h : (m.map Prod.fst).Nodup) : ((setKey m k v).map Prod.fst).Nodup := by
  rw [keys_setKey]
  by_cases hm : k ∈ m.map Prod.fst
  · simpa [hm]
  · simp only [hm, if_false]
    rw [List.nodup_append]
    exact ⟨h, List.nodup_singleton k, by simpa using hm⟩

theorem nodup_keys_addTo (m : Counts) (k : String) (d : ℚ)
    (h : (m.map Prod.fst).Nodup) : ((addTo m k d).map Prod.fst).Nodup :=
  nodup_keys_setKey m k _ h

theorem getQ_eq_zero_of_not_mem {m : Counts} {k : String}
    (h : k ∉ m.map Prod.fst) : getQ m k = 0 := by
  induction m with
  | nil => rfl
  | cons hd tl ih =>
    obtain ⟨k', v'⟩ := hd
    simp only [List.map_cons, List.mem_cons, not_or] at h
    simp only [getQ, if_neg (Ne.symm h.1)]
    exact ih h.2

theorem mergeChecked_nodup (pc : Counts) :
    ∀ (total : Counts) (coef : ℚ) (t2 : Counts),
      (total.map Prod.fst).Nodup → mergeChecked total pc coef = .ok t2 →
      (t2.map Prod.fst).Nodup := by
  induction pc with
  | nil =>
    intro total coef t2 h heq
    simp only [mergeChecked] at heq
    cases heq
    exact h
  | cons hd tl ih =>
    intro total coef t2 h heq
    obtain ⟨el, cnt⟩ := hd
    simp only [mergeChecked] at heq
    by_cases hel : isElementSymbol el = true
    · rw [if_pos hel] at heq
      exact ih _ _ _ (nodup_keys_addTo _ _ _ h) heq
    · rw [if_neg hel] at heq
      cases heq

theorem partsGo_nodup (ps : List (List Char)) :
    ∀ (total : Counts) (r : Counts),
      (total.map Prod.fst).Nodup → partsGo ps total = .ok r →
      (r.map Prod.fst).Nodup := by
  induction ps with
  | nil =>
    intro total r h heq
    simp only [partsGo] at heq
    cases heq
    exact h
  | cons p tl ih =>
    intro total r h heq
    simp only [partsGo] at heq
    split at heq
    · -- leading number matched
      split at heq
      · exact ih _ _ h heq
      · split at heq
        · cases heq
        · split at heq
          · cases heq
          · rename_i t2 hmc
            exact ih _ _ (mergeChecked_nodup _ _ _ _ h hmc) heq
    · -- no leading number
      split at heq
      · cases heq
      · split at heq
        · cases heq
        · rename_i t2 hmc
          exact ih _ _ (mergeChecked_nodup _ _ _ _ h hmc) heq

theorem parse_ok_nodup {v : JSVal} {m : Counts} (h : parse v = .ok m) :
    (m.map Prod.fst).Nodup := by
  cases v with
  | str s => exact partsGo_nodup _ _ _ (by simp) h
  | num n => simp only [parse] at h; cases h
  | other => simp only [parse] at h; cases h

/-! Section: Helper lemmas about the charge regular expression -/

theorem chargeClassB_ne_sign {c : Char} (h : chargeClassB c = true) :
    c ≠ '+' ∧ c ≠ '-' := by
  constructor <;> rintro rfl <;> exact absurd h (by decide)

theorem chargeClassB_ne_caret {c : Char} (h : chargeClassB c = true) : c ≠ '^' := by
  rintro rfl; exact absurd h (by decide)

theorem digit_not_sign {c : Char} (h : c.isDigit = true) : ¬(c = '+' ∨ c = '-') := by
  rintro (rfl | rfl) <;> exact absurd h (by decide)

theorem g1Ok_of_digits {ds : List Char} (h : ∀ c ∈ ds, c.isDigit = true) :
    g1Ok ds = true := by
  cases ds with
  | nil => rfl
  | cons c rest =>
    have hc := h c (by simp)
    simp only [g1Ok, if_neg (digit_not_sign hc)]
    rw [List.all_eq_true]
    intro x hx
    exact h x hx

theorem g1Ok_false_of_caret {l : List Char} (h : '^' ∈ l) : g1Ok l = false := by
  cases l with
  | nil => simp at h
  | cons c rest =>
    by_cases hs : c = '+' ∨ c = '-'
    · have hr : '^' ∈ rest := by
        rcases List.mem_cons.mp h with h1 | h1
        · rcases hs with rfl | rfl <;> cases h1
        · exact h1
      have hall : rest.all Char.isDigit = false := by
        cases hA : rest.all Char.isDigit
        · rfl
        · exact absurd (List.all_eq_true.mp hA _ hr) (by decide)
      simp [g1Ok, if_pos hs, hall]
    · have hall : (c :: rest).all Char.isDigit = false := by
        cases hA : (c :: rest).all Char.isDigit
        · rfl
        · exact absurd (List.all_eq_true.mp hA _ h) (by decide)
      simp only [g1Ok, if_neg hs]
      exact hall

theorem caretMatch_cons_ne {c : Char} (rest : List Char) (h : c ≠ '^') :
    caretMatch (c :: rest) = none := by
  simp [caretMatch, h]

/-- Helper: a list whose suffix contains `'^'` fails the whole-suffix
superscript class test. -/
theorem all_chargeClass_false_of_caret {l : List Char} (h : '^' ∈ l) :
    l.all chargeClassB = false := by
  cases hA : l.all chargeClassB
  · rfl
  · exact absurd (List.all_eq_true.mp hA _ h) (by decide)

/-- The caret alternative of `CHARGE_REGEX` matches exactly the suffix
`^` ++ digits ++ sign of any string, at the position of that `^`. -/
theorem findChargeMatch_caret_suffix (ds : List Char) (sgn : Char)
    (hds : ∀ c ∈ ds, c.isDigit = true) (hsgn : sgn = '+' ∨ sgn = '-') :
    ∀ body : List Char,
      findChargeMatch (body ++ '^' :: (ds ++ [sgn])) =
        some (body.length, .caret ds sgn) := by
  intro body
  induction body with
  | nil =>
    show findChargeMatch ('^' :: (ds ++ [sgn])) = _
    have hcm : caretMatch ('^' :: (ds ++ [sgn])) = some (ds, sgn) := by
      have hcond : (sgn = '+' ∨ sgn = '-') ∧ g1Ok ds = true :=
        ⟨hsgn, g1Ok_of_digits hds⟩
      simp [caretMatch, List.getLast?_concat, List.dropLast_concat,
        hcond.1, hcond.2]
    rw [findChargeMatch, hcm]
    rfl
  | cons c body ih =>
    show findChargeMatch (c :: (body ++ '^' :: (ds ++ [sgn]))) = _
    have hcm : caretMatch (c :: (body ++ '^' :: (ds ++ [sgn]))) = none := by
      by_cases hc : c = '^'
      · subst hc
        have hconc : body ++ '^' :: (ds ++ [sgn]) = (body ++ '^' :: ds) ++ [sgn] := by
          simp
        have hneg : ¬((sgn = '+' ∨ sgn = '-') ∧ g1Ok (body ++ '^' :: ds) = true) := by
          rintro ⟨-, hg⟩
          rw [g1Ok_false_of_caret (by simp)] at hg
          cases hg
        simp only [caretMatch, if_pos rfl, hconc, List.getLast?_concat,
          List.dropLast_concat]
        rw [if_neg hneg]
        simp
      · exact caretMatch_cons_ne _ hc
    have hsup : (chargeClassB c && (body ++ '^' :: (ds ++ [sgn])).all chargeClassB)
        = false := by
      rw [all_chargeClass_false_of_caret (by simp), Bool.and_false]
    rw [findChargeMatch, hcm, hsup]
    simp only [Bool.false_eq_true, if_false, ih, List.length_cons]

/-- The superscript alternative matches exactly a nonempty all-class suffix,
provided the preceding character (if any) is outside the class. -/
theorem findChargeMatch_sup_suffix (cs : List Char) (h1 : cs ≠ [])
    (h2 : ∀ c ∈ cs, chargeClassB c = true) :
    ∀ body : List Char,
      (∀ b, body.getLast? = some b → chargeClassB b = false) →
      findChargeMatch (body ++ cs) = some (body.length, .sup cs) := by
  have hblast : ∃ b0, cs.getLast? = some b0 := by
    cases hg : cs.getLast? with
    | none => exact absurd (List.getLast?_eq_none_iff.mp hg) h1
    | some b => exact ⟨b, rfl⟩
  obtain ⟨b0, hb0⟩ := hblast
  have hb0c : chargeClassB b0 = true := h2 b0 (List.mem_of_getLast?_eq_some hb0)
  intro body
  induction body with
  | nil =>
    intro _
    obtain ⟨c, rest, rfl⟩ : ∃ c rest, cs = c :: rest := by
      cases cs with
      | nil => exact absurd rfl h1
      | cons c rest => exact ⟨c, rest, rfl⟩
    show findChargeMatch (c :: rest) = _
    have hcm : caretMatch (c :: rest) = none :=
      caretMatch_cons_ne _ (chargeClassB_ne_caret (h2 c (by simp)))
    have hsup : (chargeClassB c && rest.all chargeClassB) = true := by
      rw [h2 c (by simp), Bool.true_and, List.all_eq_true]
      intro x hx
      exact h2 x (by simp [hx])
    rw [findChargeMatch, hcm, hsup]
    simp
  | cons c body ih =>
    intro hlast
    show findChargeMatch (c :: (body ++ cs)) = _
    have hlastcs : (body ++ cs).getLast? = some b0 := by
      rw [List.getLast?_append, hb0]
      rfl
    have hcm : caretMatch (c :: (body ++ cs)) = none := by
      by_cases hc : c = '^'
      · subst hc
        have hneg : ¬((b0 = '+' ∨ b0 = '-') ∧ g1Ok ((body ++ cs).dropLast) = true) := by
          rintro ⟨hsg, -⟩
          have hns := chargeClassB_ne_sign hb0c
          rcases hsg with rfl | rfl
          · exact hns.1 rfl
          · exact hns.2 rfl
        simp only [caretMatch, if_pos rfl, hlastcs]
        rw [if_neg hneg]
        simp
      · exact caretMatch_cons_ne _ hc
    have hsup : (chargeClassB c && (body ++ cs).all chargeClassB) = false := by
      by_cases hbody : body = []
      · subst hbody
        rw [hlast c rfl, Bool.false_and]
      · have hbl : chargeClassB (body.getLast hbody) = false := by
          apply hlast
          cases body with
          | nil => exact absurd rfl hbody
          | cons b1 bodytl =>
            rw [List.getLast?_cons_cons]
            exact List.getLast?_eq_getLast _ (by simp)
        have hall : (body ++ cs).all chargeClassB = false := by
          cases hA : (body ++ cs).all chargeClassB
          · rfl
          · have := List.all_eq_true.mp hA (body.getLast hbody)
              (by simp [List.getLast_mem hbody])
            rw [hbl] at this
            cases this
        rw [hall, Bool.and_false]
    have hlastbody : ∀ b, body.getLast? = some b → chargeClassB b = false := by
      intro b hb
      apply hlast
      cases body with
      | nil => cases hb
      | cons b1 bodytl => rw [List.getLast?_cons_cons]; exact hb
    rw [findChargeMatch, hcm, hsup]
    simp only [Bool.false_eq_true, if_false, ih hlastbody, List.length_cons]

/-- Neither alternative of `CHARGE_REGEX` matches a string without carets and
without class characters. -/
theorem findChargeMatch_none {l : List Char}
    (h : ∀ c ∈ l, c ≠ '^' ∧ chargeClassB c = false) :
    findChargeMatch l = none := by
  induction l with
  | nil => rfl
  | cons c rest ih =>
    have hcm : caretMatch (c :: rest) = none :=
      caretMatch_cons_ne _ (h c (by simp)).1
    have hsup : (chargeClassB c && rest.all chargeClassB) = false := by
      rw [(h c (by simp)).2, Bool.false_and]
    rw [findChargeMatch, hcm, hsup]
    simp only [Bool.false_eq_true, if_false,
      ih (fun x hx => h x (by simp [hx]))]

/-! Section: Helper lemmas about normalization and splitting -/

theorem commaFix_of_no_digit :
    ∀ l : List Char, (∀ c ∈ l, c.isDigit = false) → commaFix l = l := by
  intro l
  induction l using commaFix.induct with
  | case1 a b rest hd ih =>
    intro h
    have := h a (by simp)
    rw [hd.1] at this
    cases this
  | case2 a b rest hd ih =>
    intro h
    rw [commaFix.eq_1, if_neg hd, ih (fun c hc => h c (List.mem_cons_of_mem a hc))]
  | case3 a rest hne ih =>
    intro h
    rw [commaFix.eq_2 a rest hne, ih (fun c hc => h c (List.mem_cons_of_mem a hc))]
  | case4 =>
    intro _
    rfl

theorem splitSep_all_empty {l : List Char} (h : ∀ c ∈ l, c = '·' ∨ c = '_') :
    ∀ p ∈ splitSep l, p = [] := by
  induction l with
  | nil =>
    intro p hp
    simp only [splitSep, List.mem_singleton] at hp
    exact hp
  | cons c rest ih =>
    intro p hp
    simp only [splitSep, if_pos (h c (by simp)), List.mem_cons] at hp
    rcases hp with rfl | hp
    · rfl
    · exact ih (fun x hx => h x (List.mem_cons_of_mem c hx)) p hp

/-! Section: Helper lemmas for diff -/

theorem mem_dedupAux :
    ∀ (l seen : List String) (k : String),
      k ∈ dedupAux seen l ↔ (k ∈ l ∧ k ∉ seen) := by
  intro l
  induction l with
  | nil =>
    intro seen k
    simp [dedupAux]
  | cons a rest ih =>
    intro seen k
    by_cases ha : a ∈ seen
    · rw [dedupAux, if_pos ha, ih]
      constructor
      · rintro ⟨h1, h2⟩
        exact ⟨List.mem_cons_of_mem a h1, h2⟩
      · rintro ⟨h1, h2⟩
        rcases List.mem_cons.mp h1 with rfl | h1
        · exact absurd ha h2
        · exact ⟨h1, h2⟩
    · rw [dedupAux, if_neg ha, List.mem_cons]
      by_cases hk : k = a
      · subst hk
        simp [ha]
      · constructor
        · rintro (rfl | h1)
          · exact absurd rfl hk
          · have h2 := (ih _ _).mp h1
            exact ⟨List.mem_cons_of_mem a h2.1,
              fun hs => h2.2 (List.mem_cons_of_mem a hs)⟩
        · rintro ⟨h1, h2⟩
          right
          rcases List.mem_cons.mp h1 with rfl | h1
          · exact absurd rfl hk
          · refine (ih _ _).mpr ⟨h1, fun hs => ?_⟩
            rcases List.mem_cons.mp hs with rfl | hs
            · exact hk rfl
            · exact h2 hs

theorem mem_dedupKeys (l : List String) (k : String) : k ∈ dedupKeys l ↔ k ∈ l := by
  rw [dedupKeys, mem_dedupAux]
  simp

theorem nodup_dedupAux : ∀ l seen : List String, (dedupAux seen l).Nodup := by
  intro l
  induction l with
  | nil =>
    intro seen
    simp [dedupAux]
  | cons a rest ih =>
    intro seen
    by_cases ha : a ∈ seen
    · rw [dedupAux, if_pos ha]
      exact ih _
    · rw [dedupAux, if_neg ha, List.nodup_cons]
      exact ⟨fun hmem => ((mem_dedupAux _ _ _).mp hmem).2 (List.mem_cons_self a seen),
        ih _⟩

theorem nodup_dedupKeys (l : List String) : (dedupKeys l).Nodup :=
  nodup_dedupAux l []

theorem getQ_map_self (ks : List String) (f : String → ℚ) (k : String) :
    getQ (ks.map fun x => (x, f x)) k = if k ∈ ks then f k else 0 := by
  induction ks with
  | nil => simp [getQ]
  | cons a tl ih =>
    by_cases hk : a = k
    · subst hk
      simp [getQ]
    · simp [getQ, hk, ih, List.mem_cons, Ne.symm hk]

theorem keys_map_self (ks : List String) (f : String → ℚ) :
    ((ks.map fun x => (x, f x)).map Prod.fst) = ks := by
  induction ks with
  | nil => rfl
  | cons a tl ih => simp [ih]

theorem getQ_diffMap (pa pb : Counts) (k : String) :
    getQ (diffMap pa pb) k = getQ pa k - getQ pb k := by
  unfold diffMap
  rw [getQ_map_self]
  by_cases hk : k ∈ dedupKeys (pa.map Prod.fst ++ pb.map Prod.fst)
  · rw [if_pos hk]
  · rw [if_neg hk]
    rw [mem_dedupKeys, List.mem_append] at hk
    push_neg at hk
    rw [getQ_eq_zero_of_not_mem hk.1, getQ_eq_zero_of_not_mem hk.2]
    ring

theorem mem_keys_diffMap (pa pb : Counts) (k : String) :
    k ∈ (diffMap pa pb).map Prod.fst ↔
      k ∈ pa.map Prod.fst ∨ k ∈ pb.map Prod.fst := by
  unfold diffMap
  rw [keys_map_self, mem_dedupKeys, List.mem_append]

/-! Section: Helper lemmas for compare -/

theorem zip_self_map {α : Type} (l : List α) :
    l.zip l = l.map (fun a => (a, a)) := by
  induction l with
  | nil => rfl
  | cons a tl ih => simp [List.zip_cons_cons, ih]

theorem eq_of_zip_fst_eq_snd :
    ∀ xs ys : List String, xs.length = ys.length →
      (∀ p ∈ xs.zip ys, p.1 = p.2) → xs = ys := by
  intro xs
  induction xs with
  | nil =>
    intro ys h _
    cases ys with
    | nil => rfl
    | cons b tlb => simp at h
  | cons a tl ih =>
    intro ys h hp
    cases ys with
    | nil => simp at h
    | cons b tlb =>
      have hab : a = b := hp (a, b) (by simp [List.zip_cons_cons])
      have htl : tl = tlb := by
        apply ih
        · simpa using h
        · intro p hpmem
          exact hp p (by simp [List.zip_cons_cons, hpmem])
      rw [hab, htl]

theorem keysSorted_perm (m : Counts) : List.Perm (keysSorted m) (m.map Prod.fst) :=
  List.perm_insertionSort _ _

theorem keysSorted_sorted (m : Counts) : (keysSorted m).Sorted (· ≤ ·) :=
  List.sorted_insertionSort _ _

theorem mem_keysSorted (m : Counts) (k : String) :
    k ∈ keysSorted m ↔ k ∈ m.map Prod.fst :=
  (keysSorted_perm m).mem_iff

/-! Section: Remaining small helpers -/

theorem getQ_setKey_self (m : Counts) (k : String) (v : ℚ) :
    getQ (setKey m k v) k = v := by
  induction m with
  | nil => simp [setKey, getQ]
  | cons hd tl ih =>
    obtain ⟨k', v'⟩ := hd
    by_cases h : k' = k
    · simp [setKey, h, getQ]
    · simp [setKey, h, getQ, ih]

theorem getQ_addTo_self (m : Counts) (k : String) (d : ℚ) :
    getQ (addTo m k d) k = getQ m k + d :=
  getQ_setKey_self m k _

theorem parseIntJS_of_digits {ds : List Char} (h : ∀ c ∈ ds, c.isDigit = true) :
    parseIntJS ds = (digitsNat ds : ℚ) := by
  cases ds with
  | nil => rfl
  | cons c rest =>
    have hns := digit_not_sign (h c (by simp))
    refine parseIntJS.eq_3 _ (fun ds2 heq => ?_) (fun ds2 heq => ?_)
    · cases heq; exact hns (Or.inl rfl)
    · cases heq; exact hns (Or.inr rfl)

/-! Section: Claims -/

/-- C1: the spec claims that for a formula with a valid trailing charge
annotation, `parse` returns the extracted charge together with the quantity
map, with `parse "CH3COO^-"` yielding charge -1 and quantities {C:2,H:3,O:2}
and `parse "Fe(CN)6^3-"` yielding charge -3. In the code the local variable
`charge` does receive -1 resp. -3 (second and fifth conjuncts), but `parse`
returns only `total`, so the result carries no charge entry at all: the claim
is right and the code drops the charge it extracted. -/
theorem claim_C1 :
    parse (.str "CH3COO^-") = .ok [("C", 2), ("H", 3), ("O", 2)] ∧
    extractedCharge (.str "CH3COO^-") = some (-1) ∧
    "charge" ∉ ([("C", (2:ℚ)), ("H", 3), ("O", 2)].map Prod.fst) ∧
    parse (.str "Fe(CN)6^3-") = .ok [("Fe", 1), ("C", 6), ("N", 6)] ∧
    extractedCharge (.str "Fe(CN)6^3-") = some (-3) ∧
    "charge" ∉ ([("Fe", (1:ℚ)), ("C", 6), ("N", 6)].map Prod.fst) :=
  ⟨by decide, by decide, by decide, by decide, by decide, by decide⟩

/-- C3: the spec claims `parse "C1.5O3"` returns {C:1.5, O:3} and
`parse "H2e-1O1e-1"` returns {H:0.2, O:0.1}. In the code the superscript
alternative of `CHARGE_REGEX` matches the trailing ASCII digit, and the suffix
is stripped even though `_parseSuperscriptCharge` yields no charge: `"C1.5O3"`
loses its final `3` (O gets quantity 1), and `"H2e-1O1e-1"` loses its final
`1`, after which the dangling `e` of the truncated exponent raises an
invalid-character failure. -/
theorem claim_C3 :
    parse (.str "C1.5O3") = .ok [("C", 3/2), ("O", 1)] ∧
    parse (.str "H2e-1O1e-1") = .error (.invalidChar 'e') :=
  ⟨by decide, by decide⟩

/-- C5: `parse "K4[Fe(CN)6]"` returns exactly {K:4, Fe:1, C:6, N:6}; on a
closing bracket the segment scanner pops the top accumulator, scales each of
its quantities by the following numeric multiplier (default 1 via `scanNumD`)
and folds the result into the parent accumulator (second conjunct), where
`addTo` sums onto already-present keys (third conjunct). -/
theorem claim_C5 :
    parse (.str "K4[Fe(CN)6]") = .ok [("K", 4), ("Fe", 1), ("C", 6), ("N", 6)] ∧
    (∀ (fuel : Nat) (rest : List Char) (top parent : Counts) (stk : List Counts),
      parseCoreGo (fuel + 1) (']' :: rest) (top :: parent :: stk) =
        parseCoreGo fuel (rest.drop (scanNumD rest).2)
          (mergeScaled parent top (scanNumD rest).1 :: stk)) ∧
    (∀ (m : Counts) (k : String) (d : ℚ), getQ (addTo m k d) k = getQ m k + d) :=
  ⟨by decide, fun _ _ _ _ _ => rfl, getQ_addTo_self⟩

/-- C6: `parse "CuSO4·5H2O"` returns exactly {Cu:1, S:1, O:9, H:10}; the
formula is split on the hydrate separators and parsed segment by segment
(third conjunct shows `parse` is exactly that pipeline), and each segment's
entries are scaled by the segment coefficient and summed into the running
total via `addTo` (second conjunct). -/
theorem claim_C6 :
    parse (.str "CuSO4·5H2O") = .ok [("Cu", 1), ("S", 1), ("O", 9), ("H", 10)] ∧
    (∀ (total : Counts) (el : String) (cnt coef : ℚ) (rest : Counts),
      mergeChecked total ((el, cnt) :: rest) coef =
        if isElementSymbol el then mergeChecked (addTo total el (cnt * coef)) rest coef
        else .error (.unknownSymbol el)) ∧
    (∀ f : String,
      parse (.str f) =
        partsGo ((splitSep (extractChargeStep (normalizeChars f.data)).2).filter
          (fun p => !p.isEmpty)) []) :=
  ⟨by decide, fun _ _ _ _ _ => rfl, fun _ => rfl⟩

/-- C9: `validate` is false on "Xx2O" (unknown symbol), "Ca(OH)2]" (unmatched
closing bracket), "Ca(OH2" (unmatched opening bracket) and on the non-string
argument 123, and in general `validate v` is true exactly when `parse v`
succeeds. -/
theorem claim_C9 :
    validate (.str "Xx2O") = false ∧
    validate (.str "Ca(OH)2]") = false ∧
    validate (.str "Ca(OH2") = false ∧
    validate (.num 123) = false ∧
    (∀ v : JSVal, validate v = true ↔ ∃ m, parse v = .ok m) := by
  refine ⟨by decide, by decide, by decide, by decide, fun v => ?_⟩
  unfold validate
  cases h : parse v with
  | ok m => simp [h]
  | error e => simp [h]

/-- C10: `parse` applied to a string made only of whitespace, commas and
hydrate separators (`·` or `_`) succeeds with an empty quantity map, and no
charge is extracted. -/
theorem claim_C10 (s : String)
    (h : ∀ c ∈ s.data, isJsWs c = true ∨ c = ',' ∨ c = '·' ∨ c = '_') :
    parse (.str s) = .ok [] ∧ extractedCharge (.str s) = none := by
  have h1 : ∀ c ∈ s.data.filter (fun c => !isJsWs c), c = ',' ∨ c = '·' ∨ c = '_' := by
    intro c hc
    rw [List.mem_filter] at hc
    rcases h c hc.1 with hw | h2
    · rw [hw] at hc
      simp at hc
    · exact h2
  have hfix : commaFix (s.data.filter (fun c => !isJsWs c)) =
      s.data.filter (fun c => !isJsWs c) := by
    apply commaFix_of_no_digit
    intro c hc
    rcases h1 c hc with rfl | rfl | rfl <;> decide
  have h2 : ∀ c ∈ normalizeChars s.data, c = '·' ∨ c = '_' := by
    intro c hc
    unfold normalizeChars at hc
    rw [hfix, List.mem_filter] at hc
    rcases h1 c hc.1 with rfl | h3
    · simp at hc
    · exact h3
  have hcharge : findChargeMatch (normalizeChars s.data) = none := by
    apply findChargeMatch_none
    intro c hc
    rcases h2 c hc with rfl | rfl <;> exact ⟨by decide, by decide⟩
  have hstep : extractChargeStep (normalizeChars s.data) =
      (none, normalizeChars s.data) := by
    rw [extractChargeStep, hcharge]
  have hparts : (splitSep (normalizeChars s.data)).filter (fun p => !p.isEmpty) = [] := by
    rw [List.filter_eq_nil_iff]
    intro p hp
    rw [splitSep_all_empty h2 p hp]
    decide
  constructor
  · show partsGo ((splitSep (extractChargeStep (normalizeChars s.data)).2).filter
      (fun p => !p.isEmpty)) [] = .ok []
    rw [hstep]
    show partsGo ((splitSep (normalizeChars s.data)).filter (fun p => !p.isEmpty)) [] = .ok []
    rw [hparts]
    rfl
  · show (extractChargeStep (normalizeChars s.data)).1 = none
    rw [hstep]

/-- C10 witness: the concrete all-separator string " ·,_ " parses to the
empty map with no charge. -/
theorem claim_C10_witness :
    parse (.str " ·,_ ") = .ok [] ∧ extractedCharge (.str " ·,_ ") = none :=
  claim_C10 " ·,_ " (by decide)

/-- C2 counterexample: the claim says a trailing superscript-class run that
does not reduce to a valid digits-sign pattern remains attached and makes the
parse fail. For "H⁺⁺" the run "⁺⁺" does not reduce (third conjunct), yet the
suffix is removed, no charge is extracted, and the parse SUCCEEDS with {H:1}. -/
theorem claim_C2_counterexample :
    parse (.str "H⁺⁺") = .ok [("H", 1)] ∧
    extractedCharge (.str "H⁺⁺") = none ∧
    parseSuperscriptCharge ['⁺', '⁺'] = none :=
  ⟨by decide, by decide, by decide⟩

/-- C2 (amended): when the trailing run of superscript-class characters does
not reduce to a valid digits-then-sign pattern, no charge is extracted, but
the suffix is nonetheless silently removed from the segment string (the
second component is `body`, the input with the run stripped), so parsing
continues on the remainder and may succeed. -/
theorem claim_C2 (body cs : List Char) (h1 : cs ≠ [])
    (h2 : ∀ c ∈ cs, chargeClassB c = true)
    (h3 : parseSuperscriptCharge cs = none)
    (h4 : ∀ b, body.getLast? = some b → chargeClassB b = false) :
    extractChargeStep (body ++ cs) = (none, body) := by
  rw [extractChargeStep, findChargeMatch_sup_suffix cs h1 h2 body h4]
  show (parseSuperscriptCharge cs, (body ++ cs).take body.length) = (none, body)
  rw [h3, List.take_left]

/-- C2 witness: instantiation at body = "H", run = "⁺⁺". -/
theorem claim_C2_witness :
    extractChargeStep ("H".data ++ ['⁺', '⁺']) = (none, "H".data) :=
  claim_C2 "H".data ['⁺', '⁺'] (by decide) (by decide) (by decide)
    (by
      intro b hb
      have hb2 : some 'H' = some b := hb
      injection hb2 with hb3
      rw [← hb3]
      decide)

/-- C4 counterexample: the claim includes "^-3" among the recognized caret
charge forms. The caret alternative requires the sign AFTER the digits, so on
"O^-3" no caret charge is recognized (the superscript alternative eats the
trailing "3" instead, yielding no charge), and parsing fails on the leftover
'^' rather than extracting charge -3. -/
theorem claim_C4_counterexample :
    parse (.str "O^-3") = .error (.invalidChar '^') ∧
    extractedCharge (.str "O^-3") = none :=
  ⟨by decide, by decide⟩

/-- C4 (amended): for every formula whose suffix is `^` followed by optional
digits and then a mandatory trailing `+` or `-`, the charge extractor
recognizes the suffix as the caret charge annotation — magnitude defaulting
to 1 when no digits are given, sign taken from the trailing symbol — and
strips the suffix from the string handed to segmentation (the second
component is `body`). Sign-before-digits forms such as `^-3` are NOT
recognized (see the counterexample). -/
theorem claim_C4 (body ds : List Char) (sgn : Char)
    (hds : ∀ c ∈ ds, c.isDigit = true) (hsgn : sgn = '+' ∨ sgn = '-') :
    extractChargeStep (body ++ '^' :: (ds ++ [sgn])) =
      (some (if sgn = '+' then (if ds = [] then (1:ℚ) else (digitsNat ds : ℚ))
             else -(if ds = [] then (1:ℚ) else (digitsNat ds : ℚ))), body) := by
  rw [extractChargeStep, findChargeMatch_caret_suffix ds sgn hds hsgn body]
  show (some (if sgn = '+' then (if ds = [] then 1 else parseIntJS ds)
              else -(if ds = [] then 1 else parseIntJS ds)),
        (body ++ '^' :: (ds ++ [sgn])).take body.length) = _
  rw [parseIntJS_of_digits hds,
    show (body ++ '^' :: (ds ++ [sgn])).take body.length = body from List.take_left _ _]

/-- C4 witness: instantiation at "SO4" ++ "^2-": charge -2, body "SO4". -/
theorem claim_C4_witness :
    extractChargeStep ("SO4".data ++ '^' :: (['2'] ++ ['-'])) =
      (some (if ('-' : Char) = '+'
             then (if (['2'] : List Char) = [] then (1:ℚ) else (digitsNat ['2'] : ℚ))
             else -(if (['2'] : List Char) = [] then (1:ℚ) else (digitsNat ['2'] : ℚ))),
       "SO4".data) :=
  claim_C4 "SO4".data ['2'] '-' (by decide) (by decide)

/-- C8: when both parses succeed, `diff` returns the element-wise difference
over the union of the key sets, missing keys counting as 0 and zero-valued
entries retained (the result's key set is the full union); when either parse
fails, `diff` propagates that failure instead of returning a result. -/
theorem claim_C8 (a b : String) :
    (∀ pa pb, parse (.str a) = .ok pa → parse (.str b) = .ok pb →
      diff (.str a) (.str b) = .ok (diffMap pa pb) ∧
      (∀ k, k ∈ (diffMap pa pb).map Prod.fst ↔
        (k ∈ pa.map Prod.fst ∨ k ∈ pb.map Prod.fst)) ∧
      (∀ k, getQ (diffMap pa pb) k = getQ pa k - getQ pb k)) ∧
    (∀ e, parse (.str a) = .error e → diff (.str a) (.str b) = .error e) ∧
    (∀ pa e, parse (.str a) = .ok pa → parse (.str b) = .error e →
      diff (.str a) (.str b) = .error e) := by
  refine ⟨fun pa pb ha hb => ⟨?_, mem_keys_diffMap pa pb, getQ_diffMap pa pb⟩, ?_, ?_⟩
  · unfold diff
    rw [ha, hb]
  · intro e he
    unfold diff
    rw [he]
  · intro pa e ha hb
    unfold diff
    rw [ha, hb]

/-- C8 witness: instantiation at "H2O" and "OH"; the difference retains the
zero entry for O. -/
theorem claim_C8_witness :
    diff (.str "H2O") (.str "OH") =
      .ok (diffMap [("H", 2), ("O", 1)] [("O", 1), ("H", 1)]) :=
  ((claim_C8 "H2O" "OH").1 _ _ (by decide) (by decide)).1

/-- C7: `compare a b` is true exactly when both parses succeed, the quantity
maps have identical element-key sets, and every per-element difference is at
most the absolute tolerance 1e-12; a parse failure on either side gives
false. (No charge is ever present in the maps, so charge plays no role.) -/
theorem claim_C7 (a b : String) :
    compare (.str a) (.str b) = true ↔
      ∃ pa pb, parse (.str a) = .ok pa ∧ parse (.str b) = .ok pb ∧
        (∀ k, k ∈ pa.map Prod.fst ↔ k ∈ pb.map Prod.fst) ∧
        (∀ k, |getQ pa k - getQ pb k| ≤ tol) := by
  unfold compare
  cases hpa : parse (.str a) with
  | error e =>
    constructor
    · intro h
      exact Bool.noConfusion h
    · rintro ⟨pa', pb', hpa', -, -, -⟩
      exact Except.noConfusion hpa'
  | ok pa =>
    cases hpb : parse (.str b) with
    | error e =>
      constructor
      · intro h
        exact Bool.noConfusion h
      · rintro ⟨pa', pb', -, hpb', -, -⟩
        exact Except.noConfusion hpb'
    | ok pb =>
      show (decide ((keysSorted pa).length = (keysSorted pb).length) &&
        ((keysSorted pa).zip (keysSorted pb)).all (fun p =>
          decide (p.1 = p.2) && decide (|getQ pa p.1 - getQ pb p.2| ≤ tol))) = true ↔ _
      constructor
      · intro h
        rw [Bool.and_eq_true] at h
        obtain ⟨hlen, hall⟩ := h
        rw [decide_eq_true_eq] at hlen
        rw [List.all_eq_true] at hall
        have hpair : ∀ p ∈ (keysSorted pa).zip (keysSorted pb), p.1 = p.2 := by
          intro p hp
          have h2 := hall p hp
          rw [Bool.and_eq_true, decide_eq_true_eq] at h2
          exact h2.1
        have hkeq : keysSorted pa = keysSorted pb :=
          eq_of_zip_fst_eq_snd _ _ hlen hpair
        refine ⟨pa, pb, rfl, rfl, fun k => ?_, fun k => ?_⟩
        · rw [← mem_keysSorted pa k, ← mem_keysSorted pb k, hkeq]
        · by_cases hk : k ∈ pa.map Prod.fst
          · have hk1 : k ∈ keysSorted pa := (mem_keysSorted pa k).mpr hk
            have hk2 : (k, k) ∈ (keysSorted pa).zip (keysSorted pb) := by
              rw [← hkeq, zip_self_map]
              exact List.mem_map_of_mem _ hk1
            have h2 := hall (k, k) hk2
            rw [Bool.and_eq_true, decide_eq_true_eq, decide_eq_true_eq] at h2
            exact h2.2
          · have hk2 : k ∉ pb.map Prod.fst := by
              intro hmem
              exact hk ((mem_keysSorted pa k).mp
                (hkeq ▸ (mem_keysSorted pb k).mpr hmem))
            rw [getQ_eq_zero_of_not_mem hk, getQ_eq_zero_of_not_mem hk2]
            norm_num [tol]
      · rintro ⟨pa', pb', hpa', hpb', hmem, hbound⟩
        obtain rfl : pa = pa' := Except.ok.inj hpa'
        obtain rfl : pb = pb' := Except.ok.inj hpb'
        have npa : (pa.map Prod.fst).Nodup := parse_ok_nodup hpa
        have npb : (pb.map Prod.fst).Nodup := parse_ok_nodup hpb
        have hperm : List.Perm (pa.map Prod.fst) (pb.map Prod.fst) :=
          (List.perm_ext_iff_of_nodup npa npb).mpr hmem
        have hkeq : keysSorted pa = keysSorted pb :=
          List.eq_of_perm_of_sorted
            ((keysSorted_perm pa).trans (hperm.trans (keysSorted_perm pb).symm))
            (keysSorted_sorted pa) (keysSorted_sorted pb)
        rw [Bool.and_eq_true]
        refine ⟨by rw [decide_eq_true_eq, hkeq], ?_⟩
        rw [List.all_eq_true]
        intro p hp
        rw [← hkeq, zip_self_map] at hp
        obtain ⟨k, hk, rfl⟩ := List.mem_map.mp hp
        rw [Bool.and_eq_true, decide_eq_true_eq, decide_eq_true_eq]
        exact ⟨rfl, hbound k⟩

end ChemParse
